import Mathlib

/-!
Shallow embedding of the gemini-project-hub gallery application
(`src/App.jsx`): the content sanitizer `cleanCode`, the snapshot sort
comparator of the data-sync listener, the drag-and-drop reorder handlers
(`handleDragStart`, `handleDragOver`, `handleDragEnd`), the accent-color
theme lookup, and the sandboxed project viewer's document construction.
JavaScript strings are modelled as `List Char`, JavaScript numbers used
by the comparators as `Int`, and fields that may be `undefined`/`null`
as `Option`.
-/

/-- One stored project document, as assembled by the data-sync listener
(`d => (id := d.id, ...d.data())`).  `color`, `orderIndex` and `createdAt`
may be absent on legacy documents, hence `Option`; `createdAt` holds the
`seconds` component that the comparator reads via `createdAt?.seconds`. -/
structure Entry where
  id : String
  title : String
  description : String
  code : String
  color : Option String
  orderIndex : Option Int
  createdAt : Option Int
deriving DecidableEq

/-! ## A stable sort, modelling JavaScript `Array.prototype.sort`

`Array.prototype.sort(cmp)` is required by the language specification to be
a stable comparison sort; it is modelled here as a stable insertion sort,
with `le a b` meaning `cmp(a, b) <= 0` (a may stay before b). -/

/-- Insert `a` into `l`, placing it before the first element `b` with
`le a b`.  Stability: on ties the inserted (originally earlier) element
stays first. -/
def jsSortInsert (le : α → α → Bool) (a : α) : List α → List α
  | [] => [a]
  | b :: bs => if le a b then a :: b :: bs else b :: jsSortInsert le a bs

/-- Stable insertion sort used as the model of `Array.prototype.sort`. -/
def jsSort (le : α → α → Bool) : List α → List α
  | [] => []
  | a :: as => jsSortInsert le a (jsSort le as)

/-- The comparator of the data-sync `onSnapshot` callback:
`if (a.orderIndex !== undefined && b.orderIndex !== undefined) return a.orderIndex - b.orderIndex;
return (b.createdAt?.seconds || 0) - (a.createdAt?.seconds || 0);` -/
def projectCompare (a b : Entry) : Int :=
  match a.orderIndex, b.orderIndex with
  | some ai, some bi => ai - bi
  | _, _ => b.createdAt.getD 0 - a.createdAt.getD 0

/-- The comparator as an `is allowed before` boolean: `cmp(a,b) <= 0`. -/
def entryLe (a b : Entry) : Bool := decide (projectCompare a b ≤ 0)

/-- The ordering the data-sync listener derives from a pushed batch:
`data.sort(projectCompare)`. -/
def snapshotSort (docs : List Entry) : List Entry := jsSort entryLe docs

/-- Comparison purely by `orderIndex` ascending (total and transitive). -/
def orderIndexLe (a b : Entry) : Bool :=
  decide (a.orderIndex.getD 0 ≤ b.orderIndex.getD 0)

/-- Comparison purely by `createdAt` descending (total and transitive). -/
def createdAtDescLe (a b : Entry) : Bool :=
  decide (b.createdAt.getD 0 ≤ a.createdAt.getD 0)

/-- Modelled from the spec: the whole-batch `createdAt`-descending ordering
that the spec says a mixed legacy/new batch must use ("the entire batch is
ordered by createdAt descending").  Kept for comparison against the
source-derived `snapshotSort`. -/
def specCreatedAtDescOrder (l : List Entry) : List Entry :=
  jsSort createdAtDescLe l

/-! ## Drag-and-drop reorder handlers -/

/-- JavaScript `list.splice(index, 0, a)`: insert `a` at position `index`,
clamped to the list length (splice clamps its start argument). -/
def spliceInsert (l : List α) (index : Nat) (a : α) : List α :=
  l.take index ++ a :: l.drop index

/-- `handleDragOver(e, index)` from the source, over an arbitrary element
type so that it can also be applied at the JavaScript-value level (where
`draggedItem` may be `null`):
reads `draggedOverItem = projects[index]`, returns the list unchanged when
`draggedItem === draggedOverItem`, and otherwise filters `draggedItem` out
and splices it back in at `index`. -/
def handleDragOver [DecidableEq α] (projects : List α) (draggedItem : α)
    (index : Nat) : List α :=
  if projects[index]? = some draggedItem then projects
  else spliceInsert (projects.filter (fun item => item != draggedItem)) index draggedItem

/-- The per-entry writes issued by `handleDragEnd`'s batch:
`projects.forEach((proj, index) => batch.update(ref(proj.id), orderIndex := index))`. -/
def computeOrderWrites (projects : List Entry) : List (String × Nat) :=
  projects.enum.map (fun ip => (ip.2.id, ip.1))

/-- Observable outcome of `handleDragEnd`: the dragged-item marker after the
handler, the rendered projects list after the handler, the bulk commits
issued (each one list of `(id, orderIndex)` writes), and whether a failure
was logged. -/
structure DragEndResult where
  draggedItem : Option Entry
  projects : List Entry
  commits : List (List (String × Nat))
  loggedFailure : Bool
deriving DecidableEq

/-- `handleDragEnd` from the source: unconditionally clears the dragged-item
marker, issues exactly one bulk commit of dense indices over the current
working list, logs on failure, and leaves the rendered list untouched. -/
def handleDragEnd (projects : List Entry) (commitOk : Bool) : DragEndResult :=
  { draggedItem := none
    projects := projects
    commits := [computeOrderWrites projects]
    loggedFailure := !commitOk }

/-! ## Component state and the data-sync listener -/

/-- The `ProjectHub` state read and written by the reorder logic and by the
data-sync listener: the rendered `projects` list and the `draggedItem`
marker (`null` modelled as `none`). -/
structure HubState where
  projects : List Entry
  draggedItem : Option Entry
deriving DecidableEq

/-- The `onSnapshot` callback: maps the pushed documents, sorts them with
`projectCompare`, and calls `setProjects` with the result.  It reads no
drag state: `draggedItem` is left as it was. -/
def applySnapshot (s : HubState) (docs : List Entry) : HubState :=
  { s with projects := snapshotSort docs }

/-- `handleDragStart(e, index)`: records `projects[index]` as the dragged
item. -/
def handleDragStartS (s : HubState) (index : Nat) : HubState :=
  { s with draggedItem := s.projects[index]? }

/-! ## Content sanitizer

`const cleanCode = (input) => input.replace(/^```[a-z]*\n/i, '').replace(/```$/, '').trim();`
modelled over `List Char`. -/

/-- The backtick character used by fence markers. -/
def fenceChar : Char := Char.ofNat 96

/-- Three backticks, the closing fence marker. -/
def threeTicks : List Char := [fenceChar, fenceChar, fenceChar]

/-- A character matched by `[a-z]` under the `/i` flag. -/
def isFenceLetter (c : Char) : Bool :=
  (97 ≤ c.toNat && c.toNat ≤ 122) || (65 ≤ c.toNat && c.toNat ≤ 90)

/-- After the three leading backticks, consume `[a-z]*` (case-insensitive)
followed by a newline; `none` when the regex `^`-anchored match fails. -/
def dropFenceRest : List Char → Option (List Char)
  | [] => none
  | c :: cs =>
    if c = '\n' then some cs
    else if isFenceLetter c then dropFenceRest cs
    else none

/-- `input.replace(/^```[a-z]*\n/i, '')`: strip an opening fence line at the
very start of the string, when present. -/
def stripOpenFence (s : List Char) : List Char :=
  match s with
  | c1 :: c2 :: c3 :: rest =>
    if c1 = fenceChar && c2 = fenceChar && c3 = fenceChar then
      match dropFenceRest rest with
      | some r => r
      | none => c1 :: c2 :: c3 :: rest
    else c1 :: c2 :: c3 :: rest
  | s => s

/-- Strip three leading backticks from a reversed string. -/
def stripThreeTicks (r : List Char) : List Char :=
  match r with
  | a :: b :: c :: rest =>
    if a = fenceChar && b = fenceChar && c = fenceChar then rest
    else a :: b :: c :: rest
  | r => r

/-- `input.replace(/```$/, '')`: the `$`-anchored match (JavaScript `$`
without `/m` matches only at the end of input) removes a trailing `` ``` ``
when present. -/
def stripCloseFence (s : List Char) : List Char :=
  (stripThreeTicks s.reverse).reverse

/-- Whitespace per `String.prototype.trim`: the ECMAScript WhiteSpace and
LineTerminator code points. -/
def isJsWhitespace (c : Char) : Bool :=
  c.toNat = 9 || c.toNat = 10 || c.toNat = 11 || c.toNat = 12 || c.toNat = 13 ||
  c.toNat = 32 || c.toNat = 160 || c.toNat = 5760 ||
  (8192 ≤ c.toNat && c.toNat ≤ 8202) ||
  c.toNat = 8232 || c.toNat = 8233 || c.toNat = 8239 || c.toNat = 8287 ||
  c.toNat = 12288 || c.toNat = 65279

/-- Remove leading JavaScript whitespace. -/
def trimLeft (s : List Char) : List Char := s.dropWhile isJsWhitespace

/-- Remove trailing JavaScript whitespace. -/
def trimRight (s : List Char) : List Char :=
  (s.reverse.dropWhile isJsWhitespace).reverse

/-- `String.prototype.trim`. -/
def jsTrim (s : List Char) : List Char := trimRight (trimLeft s)

/-- The sanitizer `cleanCode`: strip an opening fence line, strip a trailing
closing fence, trim whitespace. -/
def cleanCode (s : List Char) : List Char :=
  jsTrim (stripCloseFence (stripOpenFence s))

/-- An opening fence line as matched by `/^```[a-z]*\n/i`. -/
def IsOpenFence (p : List Char) : Prop :=
  ∃ ls, (∀ c ∈ ls, isFenceLetter c = true) ∧
    p = fenceChar :: fenceChar :: fenceChar :: (ls ++ ['\n'])

/-! ## Accent color resolution -/

/-- One palette entry of the `COLORS` configuration table. -/
structure Theme where
  name : String
  bg : String
  text : String
  border : String
  hover : String
  shadow : String
  ring : String
deriving DecidableEq

def indigoKey : String := "indigo"
def emeraldKey : String := "emerald"
def amberKey : String := "amber"
def roseKey : String := "rose"
def cyanKey : String := "cyan"
def purpleKey : String := "purple"

def indigoTheme : Theme :=
  { name := "Indigo", bg := "bg-indigo-50", text := "text-indigo-600",
    border := "border-indigo-200", hover := "hover:border-indigo-300",
    shadow := "hover:shadow-indigo-200/50", ring := "ring-indigo-500" }

def emeraldTheme : Theme :=
  { name := "Emerald", bg := "bg-emerald-50", text := "text-emerald-600",
    border := "border-emerald-200", hover := "hover:border-emerald-300",
    shadow := "hover:shadow-emerald-200/50", ring := "ring-emerald-500" }

def amberTheme : Theme :=
  { name := "Amber", bg := "bg-amber-50", text := "text-amber-600",
    border := "border-amber-200", hover := "hover:border-amber-300",
    shadow := "hover:shadow-amber-200/50", ring := "ring-amber-500" }

def roseTheme : Theme :=
  { name := "Rose", bg := "bg-rose-50", text := "text-rose-600",
    border := "border-rose-200", hover := "hover:border-rose-300",
    shadow := "hover:shadow-rose-200/50", ring := "ring-rose-500" }

def cyanTheme : Theme :=
  { name := "Cyan", bg := "bg-cyan-50", text := "text-cyan-600",
    border := "border-cyan-200", hover := "hover:border-cyan-300",
    shadow := "hover:shadow-cyan-200/50", ring := "ring-cyan-500" }

def purpleTheme : Theme :=
  { name := "Purple", bg := "bg-purple-50", text := "text-purple-600",
    border := "border-purple-200", hover := "hover:border-purple-300",
    shadow := "hover:shadow-purple-200/50", ring := "ring-purple-500" }

/-- The `COLORS` table from the source, as an association list keeping the
source's key order. -/
def COLORS : List (String × Theme) :=
  [(indigoKey, indigoTheme), (emeraldKey, emeraldTheme), (amberKey, amberTheme),
   (roseKey, roseTheme), (cyanKey, cyanTheme), (purpleKey, purpleTheme)]

def emptyStr : String := ""

/-- The theme lookup of the list render: `COLORS[p.color || 'indigo']`.
An absent (`undefined`/`null`) or empty color is replaced by the default
key before the lookup; the lookup itself may miss (JavaScript
`undefined`), hence `Option Theme`. -/
def themeFor (color : Option String) : Option Theme :=
  let key := match color with
    | none => indigoKey
    | some c => if c = emptyStr then indigoKey else c
  List.lookup key COLORS

/-! ## Sandboxed project viewer -/

/-- The error-handler script that `ProjectViewer` writes into the iframe
document before the project code (braces and quotes of the original
JavaScript text appear here as their escape codes). -/
def errorHandlerText : String :=
  "<script>window.onerror = function(m)\x7bdocument.body.innerHTML=\x27<div style=\x22color:red;padding:20px;font-family:sans-serif\x22><h3>Runtime Error</h3>\x27+m+\x27</div>\x27\x7d</script>"

/-- The handler script as a character list. -/
def errorHandlerScript : List Char := errorHandlerText.data

/-- The isolated iframe document, reduced to its written content. -/
structure IframeDoc where
  content : List Char
deriving DecidableEq

/-- The `ProjectViewer` effect: with a project present it opens the iframe
document, writes the handler script followed by the project code, and
closes it (`doc.write(script + project.code)`), discarding any previous
content; with no project it does nothing. -/
def projectViewerLoad (project : Option Entry) (d : IframeDoc) : IframeDoc :=
  match project with
  | none => d
  | some p => { content := errorHandlerScript ++ p.code.data }

/-! ## Concrete entries and batches used by the claim instances -/

def eA : Entry :=
  { id := "a", title := "A", description := "first", code := "",
    color := none, orderIndex := some 0, createdAt := some 100 }

def eB : Entry :=
  { id := "b", title := "B", description := "second", code := "",
    color := none, orderIndex := some 1, createdAt := some 200 }

/-- `eA` as re-delivered by a later push, with its order swapped. -/
def eA2 : Entry := { eA with orderIndex := some 1 }

/-- `eB` as re-delivered by a later push, with its order swapped. -/
def eB2 : Entry := { eB with orderIndex := some 0 }

def initialState : HubState := { projects := [], draggedItem := none }

/-- The state after the first authoritative push of `[eA, eB]` and the
start of a drag on the first card. -/
def c1DragState : HubState :=
  handleDragStartS (applySnapshot initialState [eA, eB]) 0

/-- The push batch arriving mid-drag, carrying a different order. -/
def c1PushBatch : List Entry := [eA2, eB2]

/-- Mixed legacy/new batch: `mA` and `mB` define `orderIndex`, `mC` does
not; `createdAt` order disagrees with `orderIndex` order on `mA`, `mB`. -/
def mA : Entry :=
  { id := "ma", title := "MA", description := "", code := "",
    color := none, orderIndex := some 0, createdAt := some 10 }

def mB : Entry :=
  { id := "mb", title := "MB", description := "", code := "",
    color := none, orderIndex := some 1, createdAt := some 20 }

def mC : Entry :=
  { id := "mc", title := "MC", description := "", code := "",
    color := none, orderIndex := none, createdAt := some 5 }

def mixedBatch : List Entry := [mA, mB, mC]

/-- Six backticks: sanitizing once leaves a closing fence exposed. -/
def sixTicks : List Char :=
  [fenceChar, fenceChar, fenceChar, fenceChar, fenceChar, fenceChar]

def fencedExample : String := "```html\n<p>x</p>\n```"
def plainExample : String := "<p>x</p>"

def magentaStr : String := "magenta"
def tealStr : String := "teal"

def wA : Entry := { eA with id := "wa", title := "WA" }
def wB : Entry := { eB with id := "wb", title := "WB" }
def wC : Entry :=
  { id := "wc", title := "WC", description := "third", code := "",
    color := none, orderIndex := some 2, createdAt := some 300 }

/-- Entries with no `orderIndex`, for the legacy-batch witness. -/
def lA : Entry := { mA with id := "la", orderIndex := none }
def lB : Entry := { mB with id := "lb", orderIndex := none }

/-! ## Helper lemmas about the stable sort -/

theorem mem_jsSortInsert (le : α → α → Bool) (a : α) (l : List α) (x : α) :
    x ∈ jsSortInsert le a l ↔ x ∈ a :: l := by
  induction l with
  | nil => simp [jsSortInsert]
  | cons b bs ih =>
    rw [jsSortInsert]
    by_cases hab : le a b = true
    · rw [if_pos hab]
    · rw [if_neg hab]
      simp only [List.mem_cons] at ih ⊢
      rw [ih]
      tauto

theorem mem_jsSort (le : α → α → Bool) (l : List α) (x : α) :
    x ∈ jsSort le l ↔ x ∈ l := by
  induction l with
  | nil => simp [jsSort]
  | cons a as ih =>
    rw [jsSort, mem_jsSortInsert]
    simp only [List.mem_cons]
    rw [ih]

theorem jsSortInsert_congr (le₁ le₂ : α → α → Bool) (a : α) (l : List α)
    (h : ∀ x ∈ a :: l, ∀ y ∈ a :: l, le₁ x y = le₂ x y) :
    jsSortInsert le₁ a l = jsSortInsert le₂ a l := by
  induction l with
  | nil => rfl
  | cons b bs ih =>
    rw [jsSortInsert, jsSortInsert]
    rw [h a (by simp) b (by simp)]
    by_cases hc : le₂ a b = true
    · rw [if_pos hc, if_pos hc]
    · rw [if_neg hc, if_neg hc]
      rw [ih (fun x hx y hy => h x (by simp only [List.mem_cons] at hx ⊢; tauto)
        y (by simp only [List.mem_cons] at hy ⊢; tauto))]

theorem jsSort_congr (le₁ le₂ : α → α → Bool) (l : List α)
    (h : ∀ x ∈ l, ∀ y ∈ l, le₁ x y = le₂ x y) :
    jsSort le₁ l = jsSort le₂ l := by
  induction l with
  | nil => rfl
  | cons a as ih =>
    rw [jsSort, jsSort]
    rw [ih (fun x hx y hy => h x (by simp [hx]) y (by simp [hy]))]
    refine jsSortInsert_congr le₁ le₂ a (jsSort le₂ as) (fun x hx y hy => ?_)
    have hx2 : x ∈ a :: as := by
      rcases List.mem_cons.mp hx with rfl | hx3
      · simp
      · simp [List.mem_cons, (mem_jsSort le₂ as x).mp hx3]
    have hy2 : y ∈ a :: as := by
      rcases List.mem_cons.mp hy with rfl | hy3
      · simp
      · simp [List.mem_cons, (mem_jsSort le₂ as y).mp hy3]
    exact h x hx2 y hy2

theorem pairwise_jsSortInsert (le : α → α → Bool)
    (total : ∀ x y, le x y = true ∨ le y x = true)
    (trans : ∀ x y z, le x y = true → le y z = true → le x z = true)
    (a : α) (l : List α) (h : l.Pairwise (fun x y => le x y = true)) :
    (jsSortInsert le a l).Pairwise (fun x y => le x y = true) := by
  induction l with
  | nil => simp [jsSortInsert]
  | cons b bs ih =>
    rw [jsSortInsert]
    rcases List.pairwise_cons.mp h with ⟨hb, hbs⟩
    by_cases hab : le a b = true
    · rw [if_pos hab]
      refine List.pairwise_cons.mpr ⟨?_, h⟩
      intro y hy
      rcases List.mem_cons.mp hy with rfl | hy2
      · exact hab
      · exact trans a b y hab (hb y hy2)
    · rw [if_neg hab]
      refine List.pairwise_cons.mpr ⟨?_, ih hbs⟩
      intro y hy
      rcases List.mem_cons.mp ((mem_jsSortInsert le a bs y).mp hy) with rfl | hy2
      · rcases total y b with h1 | h1
        · exact absurd h1 hab
        · exact h1
      · exact hb y hy2

theorem pairwise_jsSort (le : α → α → Bool)
    (total : ∀ x y, le x y = true ∨ le y x = true)
    (trans : ∀ x y z, le x y = true → le y z = true → le x z = true)
    (l : List α) :
    (jsSort le l).Pairwise (fun x y => le x y = true) := by
  induction l with
  | nil => simp [jsSort]
  | cons a as ih =>
    rw [jsSort]
    exact pairwise_jsSortInsert le total trans a _ ih

/-! ## Comparator bridge lemmas -/

theorem orderIndexLe_total : ∀ x y : Entry,
    orderIndexLe x y = true ∨ orderIndexLe y x = true := by
  intro x y
  unfold orderIndexLe
  rcases le_total (x.orderIndex.getD 0) (y.orderIndex.getD 0) with h | h
  · exact Or.inl (decide_eq_true h)
  · exact Or.inr (decide_eq_true h)

theorem orderIndexLe_trans : ∀ x y z : Entry,
    orderIndexLe x y = true → orderIndexLe y z = true → orderIndexLe x z = true := by
  intro x y z hxy hyz
  exact decide_eq_true (le_trans (of_decide_eq_true hxy) (of_decide_eq_true hyz))

theorem createdAtDescLe_total : ∀ x y : Entry,
    createdAtDescLe x y = true ∨ createdAtDescLe y x = true := by
  intro x y
  unfold createdAtDescLe
  rcases le_total (y.createdAt.getD 0) (x.createdAt.getD 0) with h | h
  · exact Or.inl (decide_eq_true h)
  · exact Or.inr (decide_eq_true h)

theorem createdAtDescLe_trans : ∀ x y z : Entry,
    createdAtDescLe x y = true → createdAtDescLe y z = true →
    createdAtDescLe x z = true := by
  intro x y z hxy hyz
  exact decide_eq_true (le_trans (of_decide_eq_true hyz) (of_decide_eq_true hxy))

theorem entryLe_eq_orderIndexLe {a b : Entry}
    (ha : a.orderIndex.isSome = true) (hb : b.orderIndex.isSome = true) :
    entryLe a b = orderIndexLe a b := by
  obtain ⟨ai, hai⟩ := Option.isSome_iff_exists.mp ha
  obtain ⟨bi, hbi⟩ := Option.isSome_iff_exists.mp hb
  unfold entryLe orderIndexLe projectCompare
  rw [hai, hbi]
  simp only [Option.getD_some]
  rw [decide_eq_decide]
  exact sub_nonpos

theorem entryLe_eq_createdAtDescLe {a b : Entry}
    (ha : a.orderIndex = none ∨ b.orderIndex = none) :
    entryLe a b = createdAtDescLe a b := by
  unfold entryLe createdAtDescLe projectCompare
  have hred : (match a.orderIndex, b.orderIndex with
      | some ai, some bi => ai - bi
      | _, _ => b.createdAt.getD 0 - a.createdAt.getD 0) =
      b.createdAt.getD 0 - a.createdAt.getD 0 := by
    rcases ha with h | h
    · rw [h]
    · rw [h]
      rcases a.orderIndex with _ | ai
      · rfl
      · rfl
  rw [hred, decide_eq_decide]
  exact sub_nonpos

/-! ## Helper lemmas about trimming and fence stripping -/

theorem dropWhile_dropWhile_self (p : α → Bool) (l : List α) :
    (l.dropWhile p).dropWhile p = l.dropWhile p := by
  induction l with
  | nil => rfl
  | cons a as ih =>
    rw [List.dropWhile_cons]
    by_cases h : p a = true
    · rw [if_pos h]; exact ih
    · rw [if_neg h, List.dropWhile_cons, if_neg h]

theorem dropWhile_length_le (p : α → Bool) (l : List α) :
    (l.dropWhile p).length ≤ l.length := by
  induction l with
  | nil => simp
  | cons a as ih =>
    rw [List.dropWhile_cons]
    by_cases h : p a = true
    · rw [if_pos h]; exact le_trans ih (by simp)
    · rw [if_neg h]

theorem trimLeft_trimLeft (s : List Char) : trimLeft (trimLeft s) = trimLeft s :=
  dropWhile_dropWhile_self _ s

theorem trimRight_trimRight (s : List Char) :
    trimRight (trimRight s) = trimRight s := by
  unfold trimRight
  rw [List.reverse_reverse, dropWhile_dropWhile_self]

theorem trimLeft_append (s : List Char) :
    ∃ w, (∀ c ∈ w, isJsWhitespace c = true) ∧ s = w ++ trimLeft s :=
  ⟨s.takeWhile isJsWhitespace, fun _ hc => List.mem_takeWhile_imp hc,
    (List.takeWhile_append_dropWhile isJsWhitespace s).symm⟩

theorem trimRight_append (s : List Char) :
    ∃ w, (∀ c ∈ w, isJsWhitespace c = true) ∧ s = trimRight s ++ w := by
  refine ⟨(s.reverse.takeWhile isJsWhitespace).reverse, ?_, ?_⟩
  · intro c hc
    exact List.mem_takeWhile_imp (List.mem_reverse.mp hc)
  · have h := List.takeWhile_append_dropWhile isJsWhitespace s.reverse
    calc s = s.reverse.reverse := (List.reverse_reverse s).symm
      _ = (s.reverse.takeWhile isJsWhitespace ++
            s.reverse.dropWhile isJsWhitespace).reverse := by rw [h]
      _ = trimRight s ++ (s.reverse.takeWhile isJsWhitespace).reverse :=
            List.reverse_append _ _

theorem trimLeft_of_trimRight {l : List Char} (h : trimLeft l = l) :
    trimLeft (trimRight l) = trimRight l := by
  obtain ⟨w, _, hl⟩ := trimRight_append l
  cases htr : trimRight l with
  | nil => rfl
  | cons a r =>
    have hal : l = a :: (r ++ w) := by rw [hl, htr]; rfl
    have hfa : isJsWhitespace a = false := by
      by_cases hpa : isJsWhitespace a = true
      · exfalso
        rw [hal] at h
        rw [trimLeft, List.dropWhile_cons, if_pos hpa] at h
        have hlen := dropWhile_length_le isJsWhitespace (r ++ w)
        have := congrArg List.length h
        simp only [List.length_cons] at this
        omega
      · exact Bool.eq_false_iff.mpr hpa
    rw [trimLeft, List.dropWhile_cons, if_neg (by rw [hfa]; simp)]

theorem jsTrim_jsTrim (s : List Char) : jsTrim (jsTrim s) = jsTrim s := by
  unfold jsTrim
  rw [trimLeft_of_trimRight (trimLeft_trimLeft s), trimRight_trimRight]


theorem dropFenceRest_spec : ∀ (rest r : List Char), dropFenceRest rest = some r →
    ∃ ls, (∀ c ∈ ls, isFenceLetter c = true) ∧ rest = ls ++ '\n' :: r := by
  intro rest
  induction rest with
  | nil => intro r h; simp [dropFenceRest] at h
  | cons c cs ih =>
    intro r h
    rw [dropFenceRest] at h
    by_cases hn : c = '\n'
    · rw [if_pos hn] at h
      refine ⟨[], by simp, ?_⟩
      injection h with hcs
      rw [hn, hcs]
      rfl
    · rw [if_neg hn] at h
      by_cases hl : isFenceLetter c = true
      · rw [if_pos hl] at h
        obtain ⟨ls, hls, heq⟩ := ih r h
        refine ⟨c :: ls, ?_, by rw [heq]; rfl⟩
        intro d hd
        rcases List.mem_cons.mp hd with rfl | hd2
        · exact hl
        · exact hls d hd2
      · rw [if_neg hl] at h
        exact absurd h (by simp)

theorem stripOpenFence_cons3 (c1 c2 c3 : Char) (rest : List Char) :
    stripOpenFence (c1 :: c2 :: c3 :: rest) =
      if c1 = fenceChar && c2 = fenceChar && c3 = fenceChar then
        match dropFenceRest rest with
        | some r => r
        | none => c1 :: c2 :: c3 :: rest
      else c1 :: c2 :: c3 :: rest := rfl

theorem stripThreeTicks_cons3 (a b c : Char) (rest : List Char) :
    stripThreeTicks (a :: b :: c :: rest) =
      if a = fenceChar && b = fenceChar && c = fenceChar then rest
      else a :: b :: c :: rest := rfl

theorem stripOpenFence_decomp (s : List Char) :
    ∃ pre, (pre = [] ∨ IsOpenFence pre) ∧ s = pre ++ stripOpenFence s := by
  rcases s with _ | ⟨c1, _ | ⟨c2, _ | ⟨c3, rest⟩⟩⟩
  · exact ⟨[], Or.inl rfl, rfl⟩
  · exact ⟨[], Or.inl rfl, rfl⟩
  · exact ⟨[], Or.inl rfl, rfl⟩
  · rw [stripOpenFence_cons3]
    by_cases hf : (decide (c1 = fenceChar) && decide (c2 = fenceChar) &&
        decide (c3 = fenceChar)) = true
    · rw [if_pos hf]
      obtain ⟨⟨h1, h2⟩, h3⟩ : (c1 = fenceChar ∧ c2 = fenceChar) ∧ c3 = fenceChar := by
        simpa [Bool.and_eq_true, decide_eq_true_eq] using hf
      cases hdr : dropFenceRest rest with
      | none =>
        exact ⟨[], Or.inl rfl, rfl⟩
      | some r =>
        obtain ⟨ls, hls, heq⟩ := dropFenceRest_spec rest r hdr
        refine ⟨fenceChar :: fenceChar :: fenceChar :: (ls ++ ['\n']),
          Or.inr ⟨ls, hls, rfl⟩, ?_⟩
        rw [h1, h2, h3, heq]
        simp [List.append_assoc]
    · rw [if_neg hf]
      exact ⟨[], Or.inl rfl, rfl⟩

theorem stripCloseFence_decomp (s : List Char) :
    ∃ suf, (suf = [] ∨ suf = threeTicks) ∧ s = stripCloseFence s ++ suf := by
  obtain ⟨r, rfl⟩ : ∃ r : List Char, s = r.reverse :=
    ⟨s.reverse, (List.reverse_reverse s).symm⟩
  unfold stripCloseFence
  rw [List.reverse_reverse]
  rcases r with _ | ⟨a, _ | ⟨b, _ | ⟨c, rest⟩⟩⟩
  · exact ⟨[], Or.inl rfl, by simp [stripThreeTicks]⟩
  · exact ⟨[], Or.inl rfl, by simp [stripThreeTicks]⟩
  · exact ⟨[], Or.inl rfl, by simp [stripThreeTicks]⟩
  · rw [stripThreeTicks_cons3]
    by_cases hf : (decide (a = fenceChar) && decide (b = fenceChar) &&
        decide (c = fenceChar)) = true
    · rw [if_pos hf]
      obtain ⟨⟨h1, h2⟩, h3⟩ : (a = fenceChar ∧ b = fenceChar) ∧ c = fenceChar := by
        simpa [Bool.and_eq_true, decide_eq_true_eq] using hf
      refine ⟨threeTicks, Or.inr rfl, ?_⟩
      rw [h1, h2, h3]
      simp [threeTicks, List.reverse_cons, List.append_assoc]
    · rw [if_neg hf]
      exact ⟨[], Or.inl rfl, by simp⟩

/-! ## Claim theorems -/

/-- C1: the data-sync listener applies every ListSnapshot push by fully
replacing the rendered projects list, with no drag-state guard.  At the
concrete failing input, a drag of entry `eA` is in flight
(`draggedItem = some eA`) and a push carrying swapped `orderIndex` values
arrives: the rendered working list changes mid-drag, contradicting the
reconciliation rule; once idle, a push indeed fully replaces the local
list (second conjunct). -/
theorem snapshot_push_overwrites_working_list_mid_drag :
    (c1DragState.draggedItem = some eA ∧
      (applySnapshot c1DragState c1PushBatch).projects ≠ c1DragState.projects) ∧
    ∀ (s : HubState) (docs : List Entry),
      (applySnapshot s docs).projects = snapshotSort docs ∧
      (applySnapshot s docs).draggedItem = s.draggedItem := by
  exact ⟨by decide, fun s docs => ⟨rfl, rfl⟩⟩

/-- C3: the bulk commit built by `handleDragEnd` writes exactly the dense
positions `0 .. n-1` of the working list as `orderIndex` values, and these
written values are pairwise distinct, for every working list whatever its
prior `orderIndex` values. -/
theorem commit_writes_dense_distinct_indices :
    ∀ projects : List Entry,
      (computeOrderWrites projects).map Prod.snd = List.range projects.length ∧
      ((computeOrderWrites projects).map Prod.snd).Nodup := by
  intro l
  have h : (computeOrderWrites l).map Prod.snd = List.range l.length := by
    unfold computeOrderWrites
    rw [List.map_map]
    have hfst : (Prod.snd ∘ fun ip : Nat × Entry => (ip.2.id, ip.1)) = Prod.fst := by
      funext ip
      rfl
    rw [hfst, List.enum_map_fst]
  exact ⟨h, h ▸ List.nodup_range _⟩

/-- C6 counterexample: start from the authoritative order `[eA, eB]`, drag
`eA` over position 1 (working list `[eB, eA]`), and let the bulk commit
fail.  The rendered list after the failing commit is still the optimistic
working list, not ListSnapshot's last authoritative order, refuting the
claim that the local optimistic working list is discarded on failure. -/
theorem commit_failure_keeps_optimistic_list :
    (handleDragEnd (handleDragOver (snapshotSort [eA, eB]) eA 1) false).projects =
      handleDragOver (snapshotSort [eA, eB]) eA 1 ∧
    handleDragOver (snapshotSort [eA, eB]) eA 1 ≠ snapshotSort [eA, eB] ∧
    (handleDragEnd (handleDragOver (snapshotSort [eA, eB]) eA 1) false).loggedFailure
      = true := by
  decide

/-- C6 amended: on a failing bulk commit `handleDragEnd` logs the failure,
has cleared the dragged-item marker (it clears it unconditionally at drag
end), and issues exactly one commit (no retry); the local optimistic
working list is retained as the rendered list, not discarded — it is only
replaced by the next authoritative snapshot push. -/
theorem commit_failure_logs_clears_no_retry :
    ∀ projects : List Entry,
      (handleDragEnd projects false).loggedFailure = true ∧
      (handleDragEnd projects false).draggedItem = none ∧
      (handleDragEnd projects false).projects = projects ∧
      (handleDragEnd projects false).commits = [computeOrderWrites projects] := by
  intro l
  exact ⟨rfl, rfl, rfl, rfl⟩

/-- C7: when the viewer loads an entry, the written iframe document is the
error-handler script followed by the project code: the handler occupies the
(nonempty) initial segment of the document and the project code everything
after it, so the handler is installed strictly before any project code;
with no entry, nothing is written. -/
theorem sandbox_injects_handler_before_code :
    ∀ (p : Entry) (d : IframeDoc),
      (projectViewerLoad (some p) d).content = errorHandlerScript ++ p.code.data ∧
      (projectViewerLoad (some p) d).content.take errorHandlerScript.length =
        errorHandlerScript ∧
      (projectViewerLoad (some p) d).content.drop errorHandlerScript.length =
        p.code.data ∧
      errorHandlerScript ≠ [] ∧
      ∀ d0 : IframeDoc, projectViewerLoad none d0 = d0 := by
  intro p d
  exact ⟨rfl, List.take_left _ _, List.drop_left _ _, by decide, fun d0 => rfl⟩

/-- C2 counterexample: in the mixed batch `[mA, mB, mC]` the entry `mC`
lacks `orderIndex`, yet the listener's derived order is not the whole-batch
`createdAt`-descending order: the comparator still orders the pair
`mA`,`mB` by `orderIndex` (yielding `[mA, mB, mC]`) while `createdAt`
descending would put `mB` first (`[mB, mA, mC]`).  On this batch the
comparator is a strict total order, so every comparison sort returns the
same result. -/
theorem mixed_batch_not_createdAt_descending :
    (mC ∈ mixedBatch ∧ mC.orderIndex = none) ∧
    snapshotSort mixedBatch = [mA, mB, mC] ∧
    specCreatedAtDescOrder mixedBatch = [mB, mA, mC] ∧
    snapshotSort mixedBatch ≠ specCreatedAtDescOrder mixedBatch := by
  decide

/-- C2 amended: the ListSnapshot ordering is derived per entry pair, not
per snapshot: the comparator orders a pair by `orderIndex` ascending
whenever both entries define it and by `createdAt` descending otherwise,
so in a mixed batch the two keys interleave.  Consequently, when every
entry of the batch defines `orderIndex` the derived order is sorted by
`orderIndex` ascending, and when no entry defines it the derived order is
sorted by `createdAt` descending. -/
theorem snapshot_order_is_per_pair :
    ∀ l : List Entry,
      ((∀ e ∈ l, e.orderIndex.isSome = true) →
        (snapshotSort l).Pairwise
          (fun a b => a.orderIndex.getD 0 ≤ b.orderIndex.getD 0)) ∧
      ((∀ e ∈ l, e.orderIndex = none) →
        (snapshotSort l).Pairwise
          (fun a b => b.createdAt.getD 0 ≤ a.createdAt.getD 0)) := by
  intro l
  constructor
  · intro hall
    have hcongr : snapshotSort l = jsSort orderIndexLe l :=
      jsSort_congr entryLe orderIndexLe l
        (fun x hx y hy => entryLe_eq_orderIndexLe (hall x hx) (hall y hy))
    rw [hcongr]
    exact (pairwise_jsSort orderIndexLe orderIndexLe_total orderIndexLe_trans l).imp
      (fun hxy => of_decide_eq_true hxy)
  · intro hall
    have hcongr : snapshotSort l = jsSort createdAtDescLe l :=
      jsSort_congr entryLe createdAtDescLe l
        (fun x hx y hy => entryLe_eq_createdAtDescLe (Or.inl (hall x hx)))
    rw [hcongr]
    exact (pairwise_jsSort createdAtDescLe createdAtDescLe_total
      createdAtDescLe_trans l).imp (fun hxy => of_decide_eq_true hxy)

/-- C2 witness: the amended claim applied to a batch whose entries all
define `orderIndex` and to a batch where none does. -/
theorem snapshot_order_is_per_pair_witness :
    (snapshotSort [wB, wA]).Pairwise
      (fun a b => a.orderIndex.getD 0 ≤ b.orderIndex.getD 0) ∧
    (snapshotSort [lA, lB]).Pairwise
      (fun a b => b.createdAt.getD 0 ≤ a.createdAt.getD 0) :=
  ⟨(snapshot_order_is_per_pair [wB, wA]).1 (by decide),
   (snapshot_order_is_per_pair [lA, lB]).2 (by decide)⟩

/-- C4 counterexample: six backticks sanitize to three backticks, and
sanitizing again yields the empty string, so the sanitizer is not
idempotent. -/
theorem sanitizer_not_idempotent :
    cleanCode sixTicks = threeTicks ∧
    cleanCode (cleanCode sixTicks) = [] ∧
    cleanCode (cleanCode sixTicks) ≠ cleanCode sixTicks := by
  decide

/-- C4 amended: the sanitizer is idempotent on every input whose sanitized
form exposes no further wrapper marker — whenever the open-fence strip and
the close-fence strip both fix `cleanCode s`, a second sanitization returns
`cleanCode s` unchanged.  (Without that proviso idempotence fails, as a
stripped suffix can expose another fence marker.) -/
theorem sanitizer_idempotent_on_fence_free_results :
    ∀ s : List Char,
      stripOpenFence (cleanCode s) = cleanCode s →
      stripCloseFence (cleanCode s) = cleanCode s →
      cleanCode (cleanCode s) = cleanCode s := by
  intro s h1 h2
  calc cleanCode (cleanCode s)
      = jsTrim (stripCloseFence (stripOpenFence (cleanCode s))) := rfl
    _ = jsTrim (cleanCode s) := by rw [h1, h2]
    _ = jsTrim (jsTrim (stripCloseFence (stripOpenFence s))) := rfl
    _ = jsTrim (stripCloseFence (stripOpenFence s)) := jsTrim_jsTrim _
    _ = cleanCode s := rfl

/-- C4 witness: the amended idempotence applied to the fenced example,
whose sanitized form exposes no further marker. -/
theorem sanitizer_idempotent_witness :
    cleanCode (cleanCode fencedExample.data) = cleanCode fencedExample.data :=
  sanitizer_idempotent_on_fence_free_results fencedExample.data
    (by decide) (by decide)

/-- C5: for a working list of three distinct entries, dragging the first
and hovering over the third yields working order with the dragged entry
last, and the commit over that order assigns `orderIndex` 0, 1, 2 in list
order; hovering the dragged entry over itself leaves the working list
unchanged. -/
theorem hover_reorder_deterministic :
    ∀ (A B C : Entry), A ≠ B → A ≠ C →
      (handleDragOver [A, B, C] A 2 = [B, C, A] ∧
       computeOrderWrites [B, C, A] = [(B.id, 0), (C.id, 1), (A.id, 2)]) ∧
      ∀ (ps : List Entry) (d : Entry) (i : Nat), ps[i]? = some d →
        handleDragOver ps d i = ps := by
  intro A B C hAB hAC
  refine ⟨⟨?_, rfl⟩, ?_⟩
  · unfold handleDragOver
    have hcond : ¬(([A, B, C][2]?) = some A) := by
      intro h
      simp only [List.getElem?_cons_succ, List.getElem?_cons_zero,
        Option.some.injEq] at h
      exact hAC h.symm
    rw [if_neg hcond]
    have hB : (B != A) = true := bne_iff_ne.mpr (Ne.symm hAB)
    have hC : (C != A) = true := bne_iff_ne.mpr (Ne.symm hAC)
    have hfilter : [A, B, C].filter (fun item => item != A) = [B, C] := by
      simp [List.filter, bne_self_eq_false, hB, hC]
    rw [hfilter]
    rfl
  · intro ps d i h
    unfold handleDragOver
    rw [if_pos h]

/-- C5 witness: the determinism statement applied to the three concrete
distinct entries `wA`, `wB`, `wC`, and self-hover applied at index 0. -/
theorem hover_reorder_deterministic_witness :
    (handleDragOver [wA, wB, wC] wA 2 = [wB, wC, wA] ∧
     computeOrderWrites [wB, wC, wA] = [(wB.id, 0), (wC.id, 1), (wA.id, 2)]) ∧
    handleDragOver [wA, wB] wA 0 = [wA, wB] := by
  have h := hover_reorder_deterministic wA wB wC (by decide) (by decide)
  exact ⟨h.1, h.2 [wA, wB] wA 0 (by decide)⟩

/-- C8: for every input the sanitized result is a contiguous payload of the
input: the input splits into an optional opening fence line, leading
whitespace, the sanitized payload itself unaltered, trailing whitespace,
and an optional closing fence; and the fenced example sanitizes to its
inner payload. -/
theorem sanitizer_strips_only_wrappers :
    (∀ s : List Char, ∃ pre w1 w2 suf,
      (pre = [] ∨ IsOpenFence pre) ∧
      (∀ c ∈ w1, isJsWhitespace c = true) ∧
      (∀ c ∈ w2, isJsWhitespace c = true) ∧
      (suf = [] ∨ suf = threeTicks) ∧
      s = pre ++ w1 ++ cleanCode s ++ w2 ++ suf) ∧
    cleanCode fencedExample.data = plainExample.data := by
  constructor
  · intro s
    obtain ⟨pre, hpre, hs1⟩ := stripOpenFence_decomp s
    obtain ⟨suf, hsuf, hs2⟩ := stripCloseFence_decomp (stripOpenFence s)
    obtain ⟨w1, hw1, hs3⟩ := trimLeft_append (stripCloseFence (stripOpenFence s))
    obtain ⟨w2, hw2, hs4⟩ :=
      trimRight_append (trimLeft (stripCloseFence (stripOpenFence s)))
    refine ⟨pre, w1, w2, suf, hpre, hw1, hw2, hsuf, ?_⟩
    have h4 : trimLeft (stripCloseFence (stripOpenFence s)) = cleanCode s ++ w2 :=
      hs4
    have h3 : stripCloseFence (stripOpenFence s) = w1 ++ (cleanCode s ++ w2) :=
      hs3.trans (by rw [h4])
    have h2 : stripOpenFence s = (w1 ++ (cleanCode s ++ w2)) ++ suf :=
      hs2.trans (by rw [h3])
    have hfinal : s = pre ++ ((w1 ++ (cleanCode s ++ w2)) ++ suf) :=
      hs1.trans (by rw [h2])
    calc s = pre ++ ((w1 ++ (cleanCode s ++ w2)) ++ suf) := hfinal
      _ = pre ++ w1 ++ cleanCode s ++ w2 ++ suf := by simp [List.append_assoc]
  · decide

/-- C9 counterexample: an unrecognized, non-empty stored color resolves to
no theme at all (the lookup misses), not to the default indigo theme. -/
theorem unrecognized_color_yields_no_theme :
    themeFor (some magentaStr) = none ∧
    themeFor (some magentaStr) ≠ some indigoTheme := by
  decide

/-- C9 amended: resolution defaults to the first palette entry (indigo)
when the stored color field is absent or empty; every recognized palette
key resolves to its own theme; a non-empty unrecognized value resolves to
no theme (the palette lookup returns nothing) instead of defaulting. -/
theorem accent_color_resolution :
    themeFor none = some indigoTheme ∧
    themeFor (some emptyStr) = some indigoTheme ∧
    (∀ kv ∈ COLORS, themeFor (some kv.1) = some kv.2) ∧
    ∀ c : String, c ≠ emptyStr → c ∉ COLORS.map Prod.fst →
      themeFor (some c) = none := by
  refine ⟨by decide, by decide, by decide, ?_⟩
  intro c hne hmem
  simp only [COLORS, List.map_cons, List.map_nil, List.mem_cons,
    List.not_mem_nil, or_false, not_or] at hmem
  obtain ⟨h1, h2, h3, h4, h5, h6⟩ := hmem
  show List.lookup (if c = emptyStr then indigoKey else c) COLORS = none
  rw [if_neg hne]
  simp [COLORS, List.lookup, beq_eq_false_iff_ne.mpr h1,
    beq_eq_false_iff_ne.mpr h2, beq_eq_false_iff_ne.mpr h3,
    beq_eq_false_iff_ne.mpr h4, beq_eq_false_iff_ne.mpr h5,
    beq_eq_false_iff_ne.mpr h6]

/-- C9 witness: the amended claim applied to the unrecognized key `teal`. -/
theorem accent_color_resolution_witness : themeFor (some tealStr) = none :=
  accent_color_resolution.2.2.2 tealStr (by decide) (by decide)

/-- C10: a hover event with no active drag (dragged-item marker `null`,
modelled at the JavaScript-value level as `none`) passes the identity
guard, filters nothing out, and splices `null` into the list at the
hovered position: the result contains an element that is not an Entry and
was not in the original list. -/
theorem foreign_drag_inserts_null :
    ∀ (ps : List Entry) (i : Nat), i < ps.length →
      handleDragOver (ps.map Option.some) (none : Option Entry) i =
        spliceInsert (ps.map Option.some) i none ∧
      (none : Option Entry) ∈
        handleDragOver (ps.map Option.some) (none : Option Entry) i ∧
      (none : Option Entry) ∉ ps.map Option.some := by
  intro ps i hi
  have hnotin : (none : Option Entry) ∉ ps.map Option.some := by
    intro hmem
    obtain ⟨e, _, he⟩ := List.mem_map.mp hmem
    simp at he
  have hcond : ¬((ps.map Option.some)[i]? = some (none : Option Entry)) := by
    rw [List.getElem?_map, List.getElem?_eq_getElem hi]
    simp
  have hmain : handleDragOver (ps.map Option.some) (none : Option Entry) i =
      spliceInsert (ps.map Option.some) i none := by
    unfold handleDragOver
    rw [if_neg hcond]
    congr 1
    refine List.filter_eq_self.mpr ?_
    intro a ha
    obtain ⟨e, _, rfl⟩ := List.mem_map.mp ha
    rfl
  refine ⟨hmain, ?_, hnotin⟩
  rw [hmain]
  unfold spliceInsert
  exact List.mem_append.mpr (Or.inr (List.mem_cons_self _ _))

/-- C10 witness: the null insertion at the concrete list `[eA, eB]` and
hover index 1. -/
theorem foreign_drag_inserts_null_witness :
    handleDragOver ([eA, eB].map Option.some) (none : Option Entry) 1 =
      spliceInsert ([eA, eB].map Option.some) 1 none ∧
    (none : Option Entry) ∈
      handleDragOver ([eA, eB].map Option.some) (none : Option Entry) 1 ∧
    (none : Option Entry) ∉ [eA, eB].map Option.some :=
  foreign_drag_inserts_null [eA, eB] 1 (by decide)
